import Mathlib

/-!
Shallow embedding of the prompt file-handling hook (`usePromptFileHandling`)
from `client/src/hooks` of LibreChat: the attachment registry
(`Map<string, ExtendedFile>`), the upload pipeline callbacks
(`handleFileChange`, `loadImage`, `uploadFile.onSuccess` / `onError`),
the resource projector (`getToolResources` / `loadFromToolResources`),
the authenticated blob fetcher (`createAuthenticatedBlobUrl`) and the
derived views (`areFilesReady`, `fileStats`), together with theorems
settling the specification claims about them.

JavaScript conventions used throughout the embedding:
* an optional string field is `Option String`; JS truthiness of a string
  (`if (s)`) is `jsTruthy`: `none` and `some ""` are falsy;
* a JS `Map<string, _>` is an insertion-ordered association list with
  `jsMapSet` implementing `map.set` (replace in place, else append);
* `progress` is a rational so that `0.6` is exact.
-/

namespace PromptFiles

/-- JS truthiness of an optional string: `undefined` and `''` are falsy. -/
def jsTruthy : Option String → Bool
  | none => false
  | some s => s != ""

/-- `s?.startsWith(p)` on an optional string. -/
def optStartsWith : Option String → String → Bool
  | none, _ => false
  | some s, p => s.startsWith p

/-- Substring containment, `s.includes(sub)` (for nonempty `sub`). -/
def strContains (s sub : String) : Bool := (s.splitOn sub).length ≥ 2

/-- `s?.includes(sub)` on an optional string. -/
def optIncludes : Option String → String → Bool
  | none, _ => false
  | some s, sub => strContains s sub

/-- The `EToolResources` enum values used by the hook
(`librechat-data-provider`). -/
def EToolResources.image_edit : String := "image_edit"

def EToolResources.file_search : String := "file_search"

/-- The `FileSources` enum values used by the hook. -/
def FileSources.vectordb : String := "vectordb"

def FileSources.local : String := "local"

/-- The browser `File` object handed to `handleFileChange`. -/
structure BrowserFile where
  name : String
  type : String
  size : Nat
  deriving Repr, DecidableEq

/-- `ExtendedFile`: one attachment record of the registry.  The `file`
field is the raw upload-pending browser payload. -/
structure ExtendedFile where
  file_id : String
  temp_file_id : String
  type : Option String
  filename : String
  filepath : String
  progress : ℚ
  preview : Option String
  size : Nat
  width : Option Nat
  height : Option Nat
  attached : Bool
  file : Option BrowserFile := none
  tool_resource : Option String
  source : Option String := none
  metadata : Option String := none
  deriving Repr, DecidableEq

/-- `TFile`: the database file metadata record (`librechat-data-provider`),
as consumed by `loadFromToolResources` via the `fileMap` lookup. -/
structure TFile where
  file_id : String
  type : Option String
  filename : String
  filepath : String
  bytes : Option Nat
  width : Option Nat
  height : Option Nat
  source : Option String := none
  metadata : Option String := none
  deriving Repr, DecidableEq

/-- The attachment registry: the hook's `files : Map<string, ExtendedFile>`,
an insertion-ordered association list of key/record pairs. -/
abbrev Registry := List (String × ExtendedFile)

/-- `promptFiles = Array.from(files.values())`. -/
def promptFiles (r : Registry) : List ExtendedFile := r.map Prod.snd

/-- JS `Map.prototype.set`: replace the entry with the given key in place,
else append it at the end. -/
def jsMapSet (m : List (String × ExtendedFile)) (k : String) (v : ExtendedFile) :
    List (String × ExtendedFile) :=
  match m with
  | [] => [(k, v)]
  | (k', v') :: rest =>
    if k' = k then (k, v) :: rest else (k', v') :: jsMapSet rest k v

/-- The category assigned to a qualifying file by `getToolResources`:
the explicit `tool_resource` tag when (JS-)truthy, else `image_edit` for
image mime types, else `file_search` for PDF / text-like mime types, else
`file_search` as the default fallback. -/
def fileCategory (file : ExtendedFile) : String :=
  if jsTruthy file.tool_resource then file.tool_resource.getD ""
  else if optStartsWith file.type "image/" then EToolResources.image_edit
  else if file.type == some "application/pdf" || optIncludes file.type "text" then
    EToolResources.file_search
  else EToolResources.file_search

/-- `AgentToolResources`: the persisted tool-resource shape, a JS object
mapping category name to `{file_ids}`, as an insertion-ordered association
list.  (A `{}` value without `file_ids` behaves exactly like
`{file_ids: []}` under the hook's `if (resource?.file_ids)` guard, since
an array is always truthy, so both are embedded as `[]`.) -/
abbrev AgentToolResources := List (String × List String)

/-- `toolResources[cat].file_ids.push(fid)` preceded by the
initialize-if-absent and the `includes` duplicate check of
`getToolResources`. -/
def trAdd (m : List (String × List String)) (cat fid : String) :
    List (String × List String) :=
  match m with
  | [] => [(cat, [fid])]
  | (c, ids) :: rest =>
    if c = cat then
      if fid ∈ ids then (c, ids) :: rest else (c, ids ++ [fid]) :: rest
    else (c, ids) :: trAdd rest cat fid

/-- The loop body of `getToolResources`: skip files whose `file_id` is
falsy, otherwise insert the id under the file's category. -/
def projectStep (acc : List (String × List String)) (file : ExtendedFile) :
    List (String × List String) :=
  if file.file_id = "" then acc else trAdd acc (fileCategory file) file.file_id

/-- `getToolResources`: project the registry snapshot to the persisted
tool-resource shape; `undefined` when no file qualifies. -/
def getToolResources (pf : List ExtendedFile) : Option (List (String × List String)) :=
  if pf.length = 0 then none
  else
    let toolResources := pf.foldl projectStep []
    if toolResources.length > 0 then some toolResources else none

/-- One restored record of `loadFromToolResources`: the real-metadata
record when the `fileMap` lookup resolves the id, else the synthesized
placeholder record.  `blob` is the authenticated blob resolver
(`createAuthenticatedBlobUrl`), returning `none` on failure. -/
def restoreOne (fileMap : String → Option TFile) (blob : String → Option String)
    (toolResource fid : String) : ExtendedFile :=
  match fileMap fid with
  | some dbFile =>
    let source : Option String :=
      if toolResource = EToolResources.file_search then some FileSources.vectordb
      else some (dbFile.source.getD FileSources.local)
    let previewUrl : Option String :=
      if optStartsWith dbFile.type "image/" then
        let p := blob dbFile.file_id
        if jsTruthy p then p else some dbFile.filepath
      else none
    { file_id := dbFile.file_id
      temp_file_id := dbFile.file_id
      type := dbFile.type
      filename := dbFile.filename
      filepath := dbFile.filepath
      progress := 1
      preview := previewUrl
      size := dbFile.bytes.getD 0
      width := dbFile.width
      height := dbFile.height
      attached := true
      tool_resource := some toolResource
      metadata := dbFile.metadata
      source := source }
  | none =>
    { file_id := fid
      temp_file_id := fid
      type := some "application/octet-stream"
      filename := "File " ++ fid
      filepath := ""
      progress := 1
      preview := some ""
      size := 0
      width := none
      height := none
      attached := true
      tool_resource := some toolResource
      source :=
        if toolResource = EToolResources.file_search then some FileSources.vectordb
        else some FileSources.local }

/-- `loadFromToolResources`: rebuild the registry from the persisted
tool-resource shape, resolving each id through `fileMap`; `undefined`
resets the registry to empty. -/
def loadFromToolResources (fileMap : String → Option TFile)
    (blob : String → Option String)
    (toolResources : Option (List (String × List String))) : Registry :=
  match toolResources with
  | none => []
  | some trs =>
    trs.foldl
      (fun acc p =>
        p.2.foldl (fun acc2 fid => jsMapSet acc2 fid (restoreOne fileMap blob p.1 fid)) acc)
      []

/-- `areFilesReady`: `promptFiles.every(f => f.file_id && f.progress === 1)`. -/
def areFilesReady (pf : List ExtendedFile) : Bool :=
  pf.all fun file => file.file_id != "" && file.progress == 1

/-- The record shape of `fileStats`. -/
structure FileStats where
  total : Nat
  images : Nat
  documents : Nat
  uploading : Nat
  deriving Repr, DecidableEq

/-- The loop body of `fileStats`: a file with `progress < 1` counts as
uploading, overriding its type bucket; completed files are bucketed by
image vs non-image. -/
def statsStep (st : FileStats) (file : ExtendedFile) : FileStats :=
  if file.progress < 1 then { st with uploading := st.uploading + 1 }
  else if optStartsWith file.type "image/" then { st with images := st.images + 1 }
  else { st with documents := st.documents + 1 }

/-- `fileStats`: derived per-category counts over the registry snapshot. -/
def fileStats (pf : List ExtendedFile) : FileStats :=
  pf.foldl statsStep { total := pf.length, images := 0, documents := 0, uploading := 0 }

/-- The record registered by `handleFileChange` for a freshly selected
file: `file_id` and `temp_file_id` are both set to the freshly generated
uuid, progress starts at 0, and the preview is an object URL for images
(`objUrl` stands for the opaque `URL.createObjectURL(file)` result) and
the empty string otherwise. -/
def registerNew (fid : String) (file : BrowserFile) (toolResource : Option String)
    (objUrl : String) : ExtendedFile :=
  { file_id := fid
    temp_file_id := fid
    type := some file.type
    filename := file.name
    filepath := ""
    progress := 0
    preview := if file.type.startsWith "image/" then some objUrl else some ""
    size := file.size
    width := none
    height := none
    attached := false
    file := some file
    tool_resource := toolResource }

/-- The update applied by `loadImage`'s `img.onload` to the captured
record once the image has been decoded: pixel dimensions are filled in
and progress moves to 0.6. -/
def dimUpdate (f : ExtendedFile) (w h : Nat) : ExtendedFile :=
  { f with width := some w, height := some h, progress := 3 / 5 }

/-- The upload-service success payload (`{temp_file_id, file_id, filepath}`). -/
structure UploadResult where
  file_id : String
  temp_file_id : String
  filepath : String
  deriving Repr, DecidableEq

/-- The merge applied by `uploadFile.onSuccess` to the matched record:
authoritative id, final storage path, progress 1, `attached = true`, and
the preview preserved when truthy, else derived from the service-reported
path for image types only. -/
def uploadMerge (data : UploadResult) (file : ExtendedFile) : ExtendedFile :=
  { file with
    file_id := data.file_id
    filepath := data.filepath
    progress := 1
    attached := true
    preview :=
      if jsTruthy file.preview then file.preview
      else if optStartsWith file.type "image/" then some data.filepath else none }

/-- The registry update of `uploadFile.onSuccess`: walk the entries in
order, merge the first one whose `temp_file_id` matches the payload's
`temp_file_id`, and stop (`break`); a payload matching no entry leaves
the registry unchanged. -/
def onSuccessUpdate (data : UploadResult) :
    List (String × ExtendedFile) → List (String × ExtendedFile)
  | [] => []
  | (k, f) :: rest =>
    if f.temp_file_id = data.temp_file_id then (k, uploadMerge data f) :: rest
    else (k, f) :: onSuccessUpdate data rest

/-- A toast notification (`showToast` argument). -/
structure Toast where
  message : String
  status : String
  deriving Repr, DecidableEq

/-- The hook's mutable state outside the registry, for the handlers whose
claims are about frame effects: the registry itself, the `filesLoading`
flag, the toasts shown so far, the form-data submissions handed to the
upload service so far (each recorded by its provisional `file_id`), the
current shared `AbortController` (its abort reason, once aborted), and
the abort reasons signalled to the transport layer so far. -/
structure HookState where
  files : Registry
  filesLoading : Bool
  toasts : List Toast
  submitted : List String
  abortRef : Option (Option String)
  abortSignals : List String

/-- `uploadFile.onError`: log the error, clear `filesLoading`, and show a
failure toast; the registry and the submission list are not touched and
no retry is issued. -/
def onError (s : HookState) : HookState :=
  { s with
    filesLoading := false
    toasts := s.toasts ++ [{ message := "Failed to upload file", status := "error" }] }

/-- `abortUpload`: when a shared controller is present, signal
`abort('User aborted upload')` to the transport layer and drop the
reference; otherwise do nothing.  The registry is not touched. -/
def abortUpload (s : HookState) : HookState :=
  match s.abortRef with
  | none => s
  | some _ =>
    { s with
      abortRef := none
      abortSignals := s.abortSignals ++ ["User aborted upload"] }

/-- Outcome of reading the response body (`response.blob()` can reject). -/
inductive BlobRead where
  | failure (msg : String)
  | success (blobRef : String)
  deriving Repr, DecidableEq

/-- A fetch `Response`: HTTP status plus the body-read outcome.  `ok` is
the platform's `Response.ok`, i.e. status in the 2xx range. -/
structure FetchResponse where
  status : Nat
  body : BlobRead
  deriving Repr, DecidableEq

/-- `Response.ok`: status in [200, 300). -/
def FetchResponse.ok (r : FetchResponse) : Bool :=
  200 ≤ r.status && r.status < 300

/-- Outcome of `fetch` itself: the promise either rejects (network /
transport error, an exception inside the `try`) or yields a response. -/
inductive FetchOutcome where
  | rejected (msg : String)
  | resolved (response : FetchResponse)
  deriving Repr, DecidableEq

/-- The body of `createAuthenticatedBlobUrl`'s `try` block: propagate any
exception (`Except.error`), return `null` on a non-ok response, else read
the blob and materialize a local object URL (`mkUrl` stands for
`URL.createObjectURL`). -/
def blobUrlTry (outcome : FetchOutcome) (mkUrl : String → String) :
    Except String (Option String) :=
  match outcome with
  | .rejected msg => .error msg
  | .resolved r =>
    if !r.ok then .ok none
    else
      match r.body with
      | .failure msg => .error msg
      | .success b => .ok (some (mkUrl b))

/-- `createAuthenticatedBlobUrl`: `null` without a user id or token;
otherwise run the authorized fetch inside `try`/`catch`, where the catch
clause logs and returns `null`. -/
def createAuthenticatedBlobUrl (userId token : Option String)
    (outcome : FetchOutcome) (mkUrl : String → String) : Option String :=
  if !jsTruthy userId || !jsTruthy token then none
  else
    match blobUrlTry outcome mkUrl with
    | .error _ => none
    | .ok v => v

/-- `fid` is recorded under category `cat` in a tool-resource map. -/
def trMentions (m : List (String × List String)) (cat fid : String) : Prop :=
  ∃ p ∈ m, p.1 = cat ∧ fid ∈ p.2

/-- The identifier-to-category assignment relation of a registry
snapshot: `fid` is assigned `cat` when some record carries `fid` as its
`file_id` and `fileCategory` places it under `cat`. -/
def assigns (pf : List ExtendedFile) (fid cat : String) : Prop :=
  ∃ x ∈ pf, x.file_id = fid ∧ fileCategory x = cat

/-- The (category, file id) pairs traversed by `loadFromToolResources`,
in iteration order. -/
def trPairs (trs : List (String × List String)) : List (String × String) :=
  trs.flatMap fun p => p.2.map fun fid => (p.1, fid)

/-- The last category under which `fid` occurs in a pair list; since the
restore loop writes through `Map.set`, the last write wins. -/
def lastCat (pairs : List (String × String)) (fid : String) : Option String :=
  pairs.foldl (fun acc p => if p.2 = fid then some p.1 else acc) none

/-- One registry transition of the pipeline, as fired by the hook's
callbacks.  The side conditions record what the call sites guarantee:
`register` (from `handleFileChange`) keys the new record by a freshly
generated uuid absent from the registry; `extractDims` (from `loadImage`'s
decode callback) overwrites the record captured at registration — that
capture has progress 0, and no other update has touched the record yet
because the upload is only submitted after the decode callback runs;
`complete` is `uploadFile.onSuccess`; `restoreAll` is
`loadFromToolResources`, which replaces the whole registry. -/
inductive PipelineStep : Registry → Registry → Prop
  | register (s : Registry) (fid : String) (bf : BrowserFile) (tr : Option String)
      (objUrl : String) (hfresh : s.lookup fid = none) :
      PipelineStep s (jsMapSet s fid (registerNew fid bf tr objUrl))
  | extractDims (s : Registry) (f : ExtendedFile) (w h : Nat)
      (hcur : s.lookup f.file_id = some f) (hprog : f.progress = 0) :
      PipelineStep s (jsMapSet s f.file_id (dimUpdate f w h))
  | complete (s : Registry) (data : UploadResult) :
      PipelineStep s (onSuccessUpdate data s)
  | restoreAll (s : Registry) (fileMap : String → Option TFile)
      (blob : String → Option String) (trs : Option (List (String × List String))) :
      PipelineStep s (loadFromToolResources fileMap blob trs)

/-- A concrete browser file, used by witnesses. -/
def sampleBrowserFile : BrowserFile :=
  { name := "photo.png", type := "image/png", size := 10 }

/-- A concrete upload-service success payload, used by witnesses. -/
def sampleUpload : UploadResult :=
  { file_id := "srv1", temp_file_id := "img1", filepath := "/uploads/photo.png" }

/-- A concrete image record, used by witnesses. -/
def sampleImage : ExtendedFile :=
  { file_id := "img1"
    temp_file_id := "img1"
    type := some "image/png"
    filename := "photo.png"
    filepath := ""
    progress := 0
    preview := some "blob:photo"
    size := 10
    width := none
    height := none
    attached := false
    tool_resource := none }

/-- A concrete text record, used by witnesses. -/
def sampleText : ExtendedFile :=
  { file_id := "txt1"
    temp_file_id := "txt1"
    type := some "text/plain"
    filename := "notes.txt"
    filepath := "/uploads/notes.txt"
    progress := 1
    preview := some ""
    size := 5
    width := none
    height := none
    attached := true
    tool_resource := some "file_search" }

/-- A concrete database metadata record matching `sampleText`, used by
witnesses. -/
def sampleDb : TFile :=
  { file_id := "txt1"
    type := some "text/plain"
    filename := "notes.txt"
    filepath := "/uploads/notes.txt"
    bytes := some 5
    width := none
    height := none }

/-- A concrete hook state with a live abort controller, used by witnesses. -/
def sampleHookState : HookState :=
  { files := [("img1", sampleImage)]
    filesLoading := true
    toasts := []
    submitted := ["img1"]
    abortRef := some none
    abortSignals := [] }

theorem trMentions_cons (p : String × List String) (m : List (String × List String))
    (c f : String) :
    trMentions (p :: m) c f ↔ (p.1 = c ∧ f ∈ p.2) ∨ trMentions m c f := by
  simp only [trMentions, List.mem_cons]
  constructor
  · rintro ⟨q, hq | hq, h1, h2⟩
    · subst hq; exact Or.inl ⟨h1, h2⟩
    · exact Or.inr ⟨q, hq, h1, h2⟩
  · rintro (⟨h1, h2⟩ | ⟨q, hq, h1, h2⟩)
    · exact ⟨p, Or.inl rfl, h1, h2⟩
    · exact ⟨q, Or.inr hq, h1, h2⟩

theorem trMentions_nil (c f : String) : ¬ trMentions [] c f := by
  rintro ⟨q, hq, _, _⟩
  exact absurd hq (List.not_mem_nil q)

theorem trMentions_trAdd (m : List (String × List String)) (cat fid c f : String) :
    trMentions (trAdd m cat fid) c f ↔ trMentions m c f ∨ (cat = c ∧ fid = f) := by
  induction m with
  | nil =>
    rw [show trAdd [] cat fid = [(cat, [fid])] from rfl, trMentions_cons]
    constructor
    · rintro (⟨h1, h2⟩ | h)
      · exact Or.inr ⟨h1, (List.mem_singleton.mp h2).symm⟩
      · exact Or.inl h
    · rintro (h | ⟨h1, h2⟩)
      · exact absurd h (trMentions_nil c f)
      · exact Or.inl ⟨h1, List.mem_singleton.mpr h2.symm⟩
  | cons q rest ih =>
    obtain ⟨qc, qids⟩ := q
    by_cases hc : qc = cat
    · by_cases hf : fid ∈ qids
      · have he : trAdd ((qc, qids) :: rest) cat fid = (qc, qids) :: rest := by
          simp [trAdd, hc, hf]
        rw [he, trMentions_cons]
        constructor
        · exact fun h => Or.inl h
        · rintro ((⟨h1, h2⟩ | hm) | ⟨h1, h2⟩)
          · exact Or.inl ⟨h1, h2⟩
          · exact Or.inr hm
          · exact Or.inl ⟨hc.trans h1, h2 ▸ hf⟩
      · have he : trAdd ((qc, qids) :: rest) cat fid = (qc, qids ++ [fid]) :: rest := by
          simp [trAdd, hc, hf]
        rw [he, trMentions_cons, trMentions_cons (p := (qc, qids))]
        constructor
        · rintro (⟨h1, h2⟩ | hm)
          · rcases List.mem_append.mp h2 with h3 | h3
            · exact Or.inl (Or.inl ⟨h1, h3⟩)
            · exact Or.inr ⟨hc.symm.trans h1, (List.mem_singleton.mp h3).symm⟩
          · exact Or.inl (Or.inr hm)
        · rintro ((⟨h1, h2⟩ | hm) | ⟨h1, h2⟩)
          · exact Or.inl ⟨h1, List.mem_append.mpr (Or.inl h2)⟩
          · exact Or.inr hm
          · exact Or.inl ⟨hc.trans h1,
              List.mem_append.mpr (Or.inr (List.mem_singleton.mpr h2.symm))⟩
    · have he : trAdd ((qc, qids) :: rest) cat fid = (qc, qids) :: trAdd rest cat fid := by
        simp [trAdd, hc]
      rw [he, trMentions_cons, trMentions_cons (p := (qc, qids)), ih]
      tauto

theorem trAdd_ne_nil (m : List (String × List String)) (cat fid : String) :
    trAdd m cat fid ≠ [] := by
  cases m with
  | nil => simp [trAdd]
  | cons q rest =>
    obtain ⟨qc, qids⟩ := q
    simp only [trAdd]
    split_ifs <;> simp

theorem foldl_projectStep_ne_nil (pf : List ExtendedFile)
    (init : List (String × List String)) (h : init ≠ []) :
    pf.foldl projectStep init ≠ [] := by
  induction pf generalizing init with
  | nil => simpa using h
  | cons x rest ih =>
    simp only [List.foldl_cons]
    apply ih
    unfold projectStep
    split
    · exact h
    · exact trAdd_ne_nil _ _ _

theorem foldl_projectStep_nil_iff (pf : List ExtendedFile) :
    pf.foldl projectStep [] = [] ↔ ∀ x ∈ pf, x.file_id = "" := by
  induction pf with
  | nil => simp
  | cons x rest ih =>
    simp only [List.foldl_cons]
    by_cases hx : x.file_id = ""
    · simp only [projectStep, if_pos hx, ih]
      simp [hx]
    · have h1 : rest.foldl projectStep (trAdd [] (fileCategory x) x.file_id) ≠ [] :=
        foldl_projectStep_ne_nil _ _ (trAdd_ne_nil _ _ _)
      simp only [projectStep, if_neg hx]
      constructor
      · exact fun h => absurd h h1
      · intro h
        exact absurd (h x (List.mem_cons_self x rest)) hx

theorem trMentions_foldl (pf : List ExtendedFile) (init : List (String × List String))
    (c f : String) :
    trMentions (pf.foldl projectStep init) c f ↔
      trMentions init c f ∨
        ∃ x ∈ pf, x.file_id ≠ "" ∧ fileCategory x = c ∧ x.file_id = f := by
  induction pf generalizing init with
  | nil => simp
  | cons x rest ih =>
    simp only [List.foldl_cons]
    rw [ih]
    by_cases hx : x.file_id = ""
    · simp only [projectStep, if_pos hx, List.mem_cons]
      constructor
      · rintro (h | ⟨y, hy, h1, h2, h3⟩)
        · exact Or.inl h
        · exact Or.inr ⟨y, Or.inr hy, h1, h2, h3⟩
      · rintro (h | ⟨y, hy | hy, h1, h2, h3⟩)
        · exact Or.inl h
        · subst hy; exact absurd hx h1
        · exact Or.inr ⟨y, hy, h1, h2, h3⟩
    · simp only [projectStep, if_neg hx, trMentions_trAdd, List.mem_cons]
      constructor
      · rintro ((h | ⟨h1, h2⟩) | ⟨y, hy, h1, h2, h3⟩)
        · exact Or.inl h
        · exact Or.inr ⟨x, Or.inl rfl, hx, h1, h2⟩
        · exact Or.inr ⟨y, Or.inr hy, h1, h2, h3⟩
      · rintro (h | ⟨y, hy | hy, h1, h2, h3⟩)
        · exact Or.inl (Or.inl h)
        · subst hy; exact Or.inl (Or.inr ⟨h2, h3⟩)
        · exact Or.inr ⟨y, hy, h1, h2, h3⟩

theorem trAdd_good (m : List (String × List String)) (cat fid : String)
    (h : ∀ p ∈ m, (p.2 : List String).Nodup ∧ p.2 ≠ []) :
    ∀ p ∈ trAdd m cat fid, p.2.Nodup ∧ p.2 ≠ [] := by
  induction m with
  | nil =>
    intro p hp
    simp only [trAdd, List.mem_singleton] at hp
    subst hp
    simp
  | cons q rest ih =>
    obtain ⟨qc, qids⟩ := q
    intro p hp
    have hq := h (qc, qids) (List.mem_cons_self _ _)
    have hrest : ∀ p ∈ rest, (p.2 : List String).Nodup ∧ p.2 ≠ [] :=
      fun p hp => h p (List.mem_cons_of_mem _ hp)
    simp only [trAdd] at hp
    split_ifs at hp with h1 h2
    · rcases List.mem_cons.mp hp with h3 | h3
      · subst h3; exact hq
      · exact hrest _ h3
    · rcases List.mem_cons.mp hp with h3 | h3
      · subst h3
        refine ⟨?_, by simp⟩
        simp only [List.nodup_append, List.nodup_singleton, List.disjoint_singleton]
        exact ⟨hq.1, trivial, h2⟩
      · exact hrest _ h3
    · rcases List.mem_cons.mp hp with h3 | h3
      · subst h3; exact hq
      · exact ih hrest _ h3

theorem foldl_projectStep_good (pf : List ExtendedFile)
    (init : List (String × List String))
    (h : ∀ p ∈ init, (p.2 : List String).Nodup ∧ p.2 ≠ []) :
    ∀ p ∈ pf.foldl projectStep init, p.2.Nodup ∧ p.2 ≠ [] := by
  induction pf generalizing init with
  | nil => simpa using h
  | cons x rest ih =>
    simp only [List.foldl_cons]
    apply ih
    unfold projectStep
    split
    · exact h
    · exact trAdd_good _ _ _ h

theorem getToolResources_eq_some (pf : List ExtendedFile)
    (m : List (String × List String)) (h : getToolResources pf = some m) :
    m = pf.foldl projectStep [] := by
  by_cases h0 : pf.length = 0
  · simp [getToolResources, h0] at h
  · simp only [getToolResources, if_neg h0] at h
    by_cases h1 : 0 < (pf.foldl projectStep []).length
    · simp only [if_pos h1, Option.some_inj] at h
      exact h.symm
    · simp [if_neg h1] at h

theorem getToolResources_some_of_qualifying (pf : List ExtendedFile)
    (x : ExtendedFile) (hx : x ∈ pf) (hid : x.file_id ≠ "") :
    getToolResources pf = some (pf.foldl projectStep []) := by
  have hne : pf.length ≠ 0 := by
    intro h
    rw [List.length_eq_zero] at h
    subst h
    exact absurd hx (List.not_mem_nil x)
  have hfold : pf.foldl projectStep [] ≠ [] := by
    intro h
    exact hid ((foldl_projectStep_nil_iff pf).mp h x hx)
  simp only [getToolResources, if_neg hne, if_pos (List.length_pos.mpr hfold)]

theorem getToolResources_none_iff (pf : List ExtendedFile) :
    getToolResources pf = none ↔ ∀ x ∈ pf, x.file_id = "" := by
  constructor
  · intro h x hx
    by_contra hid
    rw [getToolResources_some_of_qualifying pf x hx hid] at h
    exact Option.noConfusion h
  · intro h
    by_cases h0 : pf.length = 0
    · simp [getToolResources, h0]
    · have : pf.foldl projectStep [] = [] := (foldl_projectStep_nil_iff pf).mpr h
      simp [getToolResources, h0, this]

/-- C1: for every registry snapshot, `getToolResources` produces a
category-to-`file_ids` map in which each record with a non-empty
(authoritative) `file_id` is placed under its explicit `tool_resource`
tag when truthy, else under `image_edit` for image mime types, else under
`file_search` for PDF or text-like mime types and for all other mime
types as the default; every id in the map comes from such a qualifying
record (so records whose `file_id` is empty — still uploading — are
excluded); each identifier appears at most once per category; no category
is present with an empty id list; and the result is absent exactly when
no record qualifies. -/
theorem C1_getToolResources_characterization (pf : List ExtendedFile) :
    (∀ x : ExtendedFile, fileCategory x =
        (if jsTruthy x.tool_resource then x.tool_resource.getD ""
         else if optStartsWith x.type "image/" then "image_edit"
         else if x.type == some "application/pdf" || optIncludes x.type "text" then
           "file_search"
         else "file_search"))
    ∧ (∀ x ∈ pf, x.file_id ≠ "" →
        ∃ m, getToolResources pf = some m ∧ trMentions m (fileCategory x) x.file_id)
    ∧ (∀ m, getToolResources pf = some m →
        ∀ p ∈ m, ∀ fid ∈ p.2,
          ∃ x ∈ pf, x.file_id = fid ∧ x.file_id ≠ "" ∧ fileCategory x = p.1)
    ∧ (∀ m, getToolResources pf = some m → ∀ p ∈ m, (p.2 : List String).Nodup)
    ∧ (∀ m, getToolResources pf = some m → ∀ p ∈ m, p.2 ≠ [])
    ∧ (getToolResources pf = none ↔ ∀ x ∈ pf, x.file_id = "") := by
  refine ⟨fun x => rfl, ?_, ?_, ?_, ?_, getToolResources_none_iff pf⟩
  · intro x hx hid
    refine ⟨pf.foldl projectStep [], getToolResources_some_of_qualifying pf x hx hid, ?_⟩
    rw [trMentions_foldl]
    exact Or.inr ⟨x, hx, hid, rfl, rfl⟩
  · intro m hm p hp fid hfid
    rw [getToolResources_eq_some pf m hm] at hp
    have hmem : trMentions (pf.foldl projectStep []) p.1 fid := ⟨p, hp, rfl, hfid⟩
    rw [trMentions_foldl] at hmem
    rcases hmem with h | ⟨x, hx, h1, h2, h3⟩
    · exact absurd h (trMentions_nil _ _)
    · exact ⟨x, hx, h3, h1, h2⟩
  · intro m hm p hp
    rw [getToolResources_eq_some pf m hm] at hp
    exact (foldl_projectStep_good pf [] (by simp) p hp).1
  · intro m hm p hp
    rw [getToolResources_eq_some pf m hm] at hp
    exact (foldl_projectStep_good pf [] (by simp) p hp).2

/-- Witness for C1: the placement clause applied at a concrete snapshot. -/
theorem C1_witness :
    ∃ m, getToolResources [sampleImage] = some m ∧
      trMentions m (fileCategory sampleImage) sampleImage.file_id :=
  (C1_getToolResources_characterization [sampleImage]).2.1 sampleImage
    (List.mem_singleton.mpr rfl) (by decide)

theorem statsStep_uploading (st : FileStats) (x : ExtendedFile) :
    (statsStep st x).uploading = st.uploading + (if x.progress < 1 then 1 else 0) := by
  unfold statsStep
  split_ifs <;> simp

theorem foldl_statsStep_uploading (pf : List ExtendedFile) (st : FileStats) :
    (pf.foldl statsStep st).uploading =
      st.uploading + pf.countP (fun x => decide (x.progress < 1)) := by
  induction pf generalizing st with
  | nil => simp
  | cons x rest ih =>
    simp only [List.foldl_cons, ih, statsStep_uploading, List.countP_cons]
    by_cases h : x.progress < 1 <;> simp [h] <;> omega

theorem fileStats_uploading (pf : List ExtendedFile) :
    (fileStats pf).uploading = pf.countP (fun x => decide (x.progress < 1)) := by
  unfold fileStats
  rw [foldl_statsStep_uploading]
  simp

/-- C3: for every registry snapshot whose progress values lie in the data
model's [0, 1] range, `areFilesReady` is true exactly when `fileStats`
reports `uploading = 0` and every record has a non-empty (authoritative)
`file_id`. -/
theorem C3_areFilesReady_iff_stats (pf : List ExtendedFile)
    (hrange : ∀ x ∈ pf, x.progress ≤ 1) :
    areFilesReady pf = true ↔
      ((fileStats pf).uploading = 0 ∧ ∀ x ∈ pf, x.file_id ≠ "") := by
  unfold areFilesReady
  rw [List.all_eq_true, fileStats_uploading, List.countP_eq_zero]
  constructor
  · intro h
    constructor
    · intro x hx
      have hx2 := h x hx
      simp only [Bool.and_eq_true, bne_iff_ne, beq_iff_eq] at hx2
      simp [hx2.2]
    · intro x hx
      have hx2 := h x hx
      simp only [Bool.and_eq_true, bne_iff_ne, beq_iff_eq] at hx2
      exact hx2.1
  · rintro ⟨h0, hid⟩ x hx
    have h1 : ¬ x.progress < 1 := by simpa using h0 x hx
    have h2 : x.progress = 1 := le_antisymm (hrange x hx) (not_lt.mp h1)
    simp [hid x hx, h2]

/-- Witness for C3 at a concrete one-record snapshot. -/
theorem C3_witness :
    (∀ x ∈ [sampleText], x.progress ≤ 1) ∧
      (areFilesReady [sampleText] = true ↔
        ((fileStats [sampleText]).uploading = 0 ∧ ∀ x ∈ [sampleText], x.file_id ≠ "")) :=
  ⟨by decide, C3_areFilesReady_iff_stats [sampleText] (by decide)⟩

/-- C4: on upload-service acknowledgment, when some registry entry's
provisional `temp_file_id` matches the payload's `temp_file_id` (uniquely,
as guaranteed by uuid-generated provisional ids and key uniqueness of the
`Map`), exactly that entry is replaced by the merge carrying the
authoritative `file_id`, the final `filepath`, progress 1 and the
persisted flag (`attached = true`), with the original preview preserved
when truthy and otherwise derived from the service-reported path for
image types only; when no entry matches, the registry is unchanged. -/
theorem C4_onSuccess_merge (data : UploadResult) (s : Registry) :
    (∀ x : ExtendedFile,
        uploadMerge data x =
          { x with
            file_id := data.file_id
            filepath := data.filepath
            progress := 1
            attached := true
            preview :=
              if jsTruthy x.preview then x.preview
              else if optStartsWith x.type "image/" then some data.filepath else none })
    ∧ ((∀ e ∈ s, (e : String × ExtendedFile).2.temp_file_id ≠ data.temp_file_id) →
        onSuccessUpdate data s = s)
    ∧ ((∀ e ∈ s, ∀ e' ∈ s,
          (e : String × ExtendedFile).2.temp_file_id = data.temp_file_id →
          (e' : String × ExtendedFile).2.temp_file_id = data.temp_file_id → e = e') →
        (s.map Prod.fst).Nodup →
        onSuccessUpdate data s =
          s.map fun e =>
            if e.2.temp_file_id = data.temp_file_id then (e.1, uploadMerge data e.2)
            else e) := by
  refine ⟨fun x => rfl, ?_, ?_⟩
  · intro h
    induction s with
    | nil => rfl
    | cons e rest ih =>
      obtain ⟨k, f⟩ := e
      have h1 : f.temp_file_id ≠ data.temp_file_id := h (k, f) (List.mem_cons_self _ _)
      simp only [onSuccessUpdate, if_neg h1]
      rw [ih fun e he => h e (List.mem_cons_of_mem _ he)]
  · intro huniq hkeys
    induction s with
    | nil => rfl
    | cons e rest ih =>
      obtain ⟨k, f⟩ := e
      simp only [List.map_cons, List.nodup_cons] at hkeys ⊢
      by_cases h1 : f.temp_file_id = data.temp_file_id
      · simp only [onSuccessUpdate, if_pos h1]
        have hnomatch : ∀ e ∈ rest, (e : String × ExtendedFile).2.temp_file_id ≠
            data.temp_file_id := by
          intro e he hmatch
          have := huniq e (List.mem_cons_of_mem _ he) (k, f) (List.mem_cons_self _ _)
            hmatch h1
          subst this
          exact hkeys.1 (List.mem_map_of_mem Prod.fst he)
        have : rest.map (fun e =>
            if e.2.temp_file_id = data.temp_file_id then (e.1, uploadMerge data e.2)
            else e) = rest.map id := by
          apply List.map_congr_left
          intro e he
          simp [hnomatch e he]
        rw [this, List.map_id]
      · simp only [onSuccessUpdate, if_neg h1]
        rw [ih (fun e he e' he' h h' =>
          huniq e (List.mem_cons_of_mem _ he) e' (List.mem_cons_of_mem _ he') h h')
          hkeys.2]

/-- Witness for C4: the unique-match clause at a concrete registry. -/
theorem C4_witness :
    onSuccessUpdate sampleUpload [("img1", sampleImage), ("txt1", sampleText)] =
      [("img1", sampleImage), ("txt1", sampleText)].map fun e =>
        if e.2.temp_file_id = sampleUpload.temp_file_id then
          (e.1, uploadMerge sampleUpload e.2)
        else e :=
  (C4_onSuccess_merge sampleUpload [("img1", sampleImage), ("txt1", sampleText)]).2.2
    (by decide) (by decide)

/-- C5: `uploadFile.onError` leaves the registry unchanged — no record's
progress is advanced and none is removed — issues no further upload
submission (no automatic retry), and surfaces the failure as a
user-visible error toast. -/
theorem C5_onError_frame (s : HookState) :
    (onError s).files = s.files
    ∧ (∀ k, ((onError s).files).lookup k = s.files.lookup k)
    ∧ (onError s).submitted = s.submitted
    ∧ (onError s).toasts =
        s.toasts ++ [{ message := "Failed to upload file", status := "error" }] :=
  ⟨rfl, fun _ => rfl, rfl, rfl⟩

/-- C6: `createAuthenticatedBlobUrl` never propagates an exception — the
catch clause maps every error of the try body to `null` — and it returns
`null` when no valid credential is available, when the transport fails,
when the response is non-2xx, or when reading the body fails; it returns
a local object reference exactly when credentials are present and the
authorized retrieval yields a 2xx response whose body is read. -/
theorem C6_blob_fetch_characterization (userId token : Option String)
    (outcome : FetchOutcome) (mkUrl : String → String) :
    (∀ msg, blobUrlTry outcome mkUrl = .error msg →
        createAuthenticatedBlobUrl userId token outcome mkUrl = none)
    ∧ (jsTruthy userId = false ∨ jsTruthy token = false →
        createAuthenticatedBlobUrl userId token outcome mkUrl = none)
    ∧ (∀ msg, outcome = .rejected msg →
        createAuthenticatedBlobUrl userId token outcome mkUrl = none)
    ∧ (∀ r, outcome = .resolved r → ¬(200 ≤ r.status ∧ r.status < 300) →
        createAuthenticatedBlobUrl userId token outcome mkUrl = none)
    ∧ (∀ r msg, outcome = .resolved r → r.body = .failure msg →
        createAuthenticatedBlobUrl userId token outcome mkUrl = none)
    ∧ (∀ url, createAuthenticatedBlobUrl userId token outcome mkUrl = some url ↔
        (jsTruthy userId = true ∧ jsTruthy token = true ∧
          ∃ r b, outcome = .resolved r ∧ 200 ≤ r.status ∧ r.status < 300 ∧
            r.body = .success b ∧ url = mkUrl b)) := by
  by_cases hu : jsTruthy userId
  · by_cases ht : jsTruthy token
    · have hcond : (!jsTruthy userId || !jsTruthy token) = false := by simp [hu, ht]
      refine ⟨?_, ?_, ?_, ?_, ?_, ?_⟩
      · intro msg hmsg
        simp [createAuthenticatedBlobUrl, hcond, hmsg]
      · rintro (h | h)
        · rw [hu] at h; exact Bool.noConfusion h
        · rw [ht] at h; exact Bool.noConfusion h
      · rintro msg rfl
        simp [createAuthenticatedBlobUrl, hcond, blobUrlTry]
      · rintro r rfl hnot
        have hok : r.ok = false := by
          simp only [FetchResponse.ok, Bool.and_eq_false_iff]
          rcases not_and_or.mp hnot with h | h
          · exact Or.inl (by simpa using h)
          · exact Or.inr (by simpa using h)
        simp [createAuthenticatedBlobUrl, hcond, blobUrlTry, hok]
      · rintro r msg rfl hbody
        by_cases hok : r.ok
        · simp [createAuthenticatedBlobUrl, hcond, blobUrlTry, hok, hbody]
        · simp [createAuthenticatedBlobUrl, hcond, blobUrlTry,
            Bool.eq_false_iff.mpr hok]
      · intro url
        constructor
        · intro h
          cases outcome with
          | rejected msg =>
            simp [createAuthenticatedBlobUrl, hcond, blobUrlTry] at h
          | resolved r =>
            by_cases hok : r.ok
            · cases hb : r.body with
              | failure m =>
                simp [createAuthenticatedBlobUrl, hcond, blobUrlTry, hok, hb] at h
              | success b =>
                have hst : 200 ≤ r.status ∧ r.status < 300 := by
                  simpa [FetchResponse.ok] using hok
                simp only [createAuthenticatedBlobUrl, hcond, Bool.false_eq_true,
                  if_false, blobUrlTry, hok, if_pos, hb, Bool.not_true] at h
                refine ⟨hu, ht, r, b, rfl, hst.1, hst.2, hb, ?_⟩
                simpa using h.symm
            · simp [createAuthenticatedBlobUrl, hcond, blobUrlTry,
                Bool.eq_false_iff.mpr hok] at h
        · rintro ⟨_, _, r, b, rfl, h1, h2, hb, rfl⟩
          have hok : r.ok = true := by
            simp only [FetchResponse.ok, Bool.and_eq_true, decide_eq_true_eq]
            exact ⟨h1, h2⟩
          simp [createAuthenticatedBlobUrl, hcond, blobUrlTry, hok, hb]
    · have hres : createAuthenticatedBlobUrl userId token outcome mkUrl = none := by
        simp [createAuthenticatedBlobUrl, Bool.eq_false_iff.mpr ht]
      refine ⟨fun _ _ => hres, fun _ => hres, fun _ _ => hres, fun _ _ _ => hres,
        fun _ _ _ _ => hres, fun url => ?_⟩
      rw [hres]
      simp [Bool.eq_false_iff.mpr ht]
  · have hres : createAuthenticatedBlobUrl userId token outcome mkUrl = none := by
      simp [createAuthenticatedBlobUrl, Bool.eq_false_iff.mpr hu]
    refine ⟨fun _ _ => hres, fun _ => hres, fun _ _ => hres, fun _ _ _ => hres,
      fun _ _ _ _ => hres, fun url => ?_⟩
    rw [hres]
    simp [Bool.eq_false_iff.mpr hu]

/-- Witness for C6: a non-2xx response resolves to `null` at a concrete
input. -/
theorem C6_witness :
    createAuthenticatedBlobUrl (some "user1") (some "token1")
      (.resolved { status := 404, body := .success "blobbits" }) (fun b => b) = none :=
  (C6_blob_fetch_characterization (some "user1") (some "token1")
      (.resolved { status := 404, body := .success "blobbits" }) (fun b => b)).2.2.2.1
    { status := 404, body := .success "blobbits" } rfl (by decide)

/-- C9: invoking the shared cancellation handle `abortUpload` leaves the
registry (the `files` map) unchanged; when a controller is live it signals
the abandonment reason to the transport layer and drops the shared
reference, and when none is live it does nothing at all. -/
theorem C9_abortUpload_frame (s : HookState) :
    (abortUpload s).files = s.files
    ∧ (∀ r, s.abortRef = some r →
        (abortUpload s).abortSignals = s.abortSignals ++ ["User aborted upload"] ∧
          (abortUpload s).abortRef = none)
    ∧ (s.abortRef = none → abortUpload s = s) := by
  cases h : s.abortRef with
  | none =>
    refine ⟨?_, ?_, ?_⟩
    · simp [abortUpload, h]
    · intro r hr
      exact Option.noConfusion hr
    · intro _
      simp [abortUpload, h]
  | some r0 =>
    refine ⟨?_, ?_, ?_⟩
    · simp [abortUpload, h]
    · intro r hr
      exact ⟨by simp [abortUpload, h], by simp [abortUpload, h]⟩
    · intro hn
      exact Option.noConfusion hn

/-- Witness for C9: aborting with a live controller at a concrete state. -/
theorem C9_witness :
    (abortUpload sampleHookState).files = sampleHookState.files ∧
      (abortUpload sampleHookState).abortSignals =
          sampleHookState.abortSignals ++ ["User aborted upload"] ∧
        (abortUpload sampleHookState).abortRef = none :=
  ⟨(C9_abortUpload_frame sampleHookState).1,
    (C9_abortUpload_frame sampleHookState).2.1 none rfl⟩

/-- C10: a record created through file selection is registered with
`file_id` already set and equal to the freshly generated provisional
identifier (`file_id = temp_file_id`), and the `file_id` field stays
non-empty through every lifecycle update (dimension extraction preserves
it; the completion merge replaces it with the service's non-empty
authoritative id); consequently a non-empty `file_id` does not by itself
distinguish a still-uploading record from a persisted one: the freshly
registered record has a non-empty `file_id` with `progress < 1` and
`attached = false`, while the merged record has a non-empty `file_id`
with `progress = 1` and `attached = true`. -/
theorem C10_file_id_always_set (fid : String) (bf : BrowserFile)
    (tr : Option String) (objUrl : String) (data : UploadResult) (x : ExtendedFile)
    (w h : Nat) (hfid : fid ≠ "") (hdata : data.file_id ≠ "") :
    ((registerNew fid bf tr objUrl).file_id = fid ∧
      (registerNew fid bf tr objUrl).temp_file_id = fid)
    ∧ (registerNew fid bf tr objUrl).file_id ≠ ""
    ∧ (dimUpdate x w h).file_id = x.file_id
    ∧ (uploadMerge data x).file_id = data.file_id
    ∧ (uploadMerge data x).file_id ≠ ""
    ∧ ((registerNew fid bf tr objUrl).progress < 1 ∧
        (registerNew fid bf tr objUrl).attached = false)
    ∧ ((uploadMerge data x).progress = 1 ∧ (uploadMerge data x).attached = true) :=
  ⟨⟨rfl, rfl⟩, hfid, rfl, rfl, hdata, ⟨by norm_num [registerNew], rfl⟩, ⟨rfl, rfl⟩⟩

/-- Witness for C10 at concrete inputs. -/
theorem C10_witness :
    ((registerNew "img1" sampleBrowserFile none "blob:photo").file_id = "img1" ∧
      (registerNew "img1" sampleBrowserFile none "blob:photo").temp_file_id = "img1")
    ∧ (registerNew "img1" sampleBrowserFile none "blob:photo").file_id ≠ ""
    ∧ (dimUpdate sampleImage 32 24).file_id = sampleImage.file_id
    ∧ (uploadMerge sampleUpload sampleImage).file_id = sampleUpload.file_id
    ∧ (uploadMerge sampleUpload sampleImage).file_id ≠ ""
    ∧ ((registerNew "img1" sampleBrowserFile none "blob:photo").progress < 1 ∧
        (registerNew "img1" sampleBrowserFile none "blob:photo").attached = false)
    ∧ ((uploadMerge sampleUpload sampleImage).progress = 1 ∧
        (uploadMerge sampleUpload sampleImage).attached = true) :=
  C10_file_id_always_set "img1" sampleBrowserFile none "blob:photo" sampleUpload
    sampleImage 32 24 (by decide) (by decide)

theorem jsMapSet_lookup (m : List (String × ExtendedFile)) (k : String)
    (v : ExtendedFile) (k' : String) :
    (jsMapSet m k v).lookup k' = if k' = k then some v else m.lookup k' := by
  induction m with
  | nil =>
    by_cases h : k' = k
    · have hb : (k' == k) = true := beq_iff_eq.mpr h
      simp [jsMapSet, List.lookup, hb, h]
    · have hb : (k' == k) = false := beq_eq_false_iff_ne.mpr h
      simp [jsMapSet, List.lookup, hb, h]
  | cons e rest ih =>
    obtain ⟨ek, ev⟩ := e
    by_cases he : ek = k
    · rw [show jsMapSet ((ek, ev) :: rest) k v = (k, v) :: rest by simp [jsMapSet, he]]
      by_cases hk : k' = k
      · have hb : (k' == k) = true := beq_iff_eq.mpr hk
        simp [List.lookup, hb, hk]
      · have hb : (k' == k) = false := beq_eq_false_iff_ne.mpr hk
        have hbe : (k' == ek) = false :=
          beq_eq_false_iff_ne.mpr fun hh => hk (hh.trans he)
        simp [List.lookup, hb, hbe, hk]
    · rw [show jsMapSet ((ek, ev) :: rest) k v = (ek, ev) :: jsMapSet rest k v by
        simp [jsMapSet, he]]
      by_cases hk : k' = ek
      · have hbe : (k' == ek) = true := beq_iff_eq.mpr hk
        have hknk : ¬ k' = k := fun hh => he (hk.symm.trans hh)
        simp [List.lookup, hbe, hknk]
      · have hbe : (k' == ek) = false := beq_eq_false_iff_ne.mpr hk
        simp [List.lookup, hbe, ih]

theorem jsMapSet_mem (m : List (String × ExtendedFile)) (k : String) (v : ExtendedFile)
    (e : String × ExtendedFile) (h : e ∈ jsMapSet m k v) : e ∈ m ∨ e = (k, v) := by
  induction m with
  | nil =>
    simp only [jsMapSet, List.mem_singleton] at h
    exact Or.inr h
  | cons q rest ih =>
    obtain ⟨qk, qv⟩ := q
    by_cases hq : qk = k
    · subst hq
      rw [show jsMapSet ((qk, qv) :: rest) qk v = (qk, v) :: rest by simp [jsMapSet]] at h
      rcases List.mem_cons.mp h with h1 | h1
      · exact Or.inr h1
      · exact Or.inl (List.mem_cons_of_mem _ h1)
    · rw [show jsMapSet ((qk, qv) :: rest) k v = (qk, qv) :: jsMapSet rest k v by
        simp [jsMapSet, hq]] at h
      rcases List.mem_cons.mp h with h1 | h1
      · exact Or.inl (h1 ▸ List.mem_cons_self _ _)
      · rcases ih h1 with h2 | h2
        · exact Or.inl (List.mem_cons_of_mem _ h2)
        · exact Or.inr h2

theorem lookup_mem (m : List (String × ExtendedFile)) (k : String) (f : ExtendedFile)
    (h : m.lookup k = some f) : (k, f) ∈ m := by
  induction m with
  | nil => simp [List.lookup] at h
  | cons e rest ih =>
    obtain ⟨ek, ev⟩ := e
    by_cases hk : k = ek
    · have hb : (k == ek) = true := beq_iff_eq.mpr hk
      simp only [List.lookup, hb] at h
      injection h with h
      subst hk
      subst h
      exact List.mem_cons_self _ _
    · have hne : (k == ek) = false := beq_eq_false_iff_ne.mpr hk
      simp only [List.lookup, hne] at h
      exact List.mem_cons_of_mem _ (ih h)

theorem lastCat_foldl_init (pairs : List (String × String)) (fid : String)
    (a : Option String) :
    pairs.foldl (fun acc p => if p.2 = fid then some p.1 else acc) a =
      match lastCat pairs fid with
      | some c => some c
      | none => a := by
  induction pairs generalizing a with
  | nil => simp [lastCat]
  | cons p rest ih =>
    have hl : lastCat (p :: rest) fid =
        rest.foldl (fun acc q => if q.2 = fid then some q.1 else acc)
          (if p.2 = fid then some p.1 else none) := rfl
    simp only [List.foldl_cons]
    rw [ih, hl, ih]
    cases hres : lastCat rest fid with
    | some c => simp
    | none =>
      by_cases hp : p.2 = fid <;> simp [hp]

theorem lastCat_cons (p : String × String) (rest : List (String × String))
    (fid : String) :
    lastCat (p :: rest) fid =
      match lastCat rest fid with
      | some c => some c
      | none => if p.2 = fid then some p.1 else none := by
  have hl : lastCat (p :: rest) fid =
      rest.foldl (fun acc q => if q.2 = fid then some q.1 else acc)
        (if p.2 = fid then some p.1 else none) := rfl
  rw [hl, lastCat_foldl_init]

theorem lastCat_eq_none_iff (pairs : List (String × String)) (fid : String) :
    lastCat pairs fid = none ↔ ∀ p ∈ pairs, p.2 ≠ fid := by
  induction pairs with
  | nil => simp [lastCat]
  | cons p rest ih =>
    rw [lastCat_cons]
    cases hres : lastCat rest fid with
    | some c =>
      simp only []
      constructor
      · intro h
        exact Option.noConfusion h
      · intro h
        exact absurd (ih.mpr fun q hq => h q (List.mem_cons_of_mem _ hq))
          (by simp [hres])
    | none =>
      simp only []
      by_cases hp : p.2 = fid
      · simp only [if_pos hp]
        constructor
        · intro h
          exact Option.noConfusion h
        · intro h
          exact absurd hp (h p (List.mem_cons_self _ _))
      · simp only [if_neg hp]
        constructor
        · intro _ q hq
          rcases List.mem_cons.mp hq with h1 | h1
          · exact h1 ▸ hp
          · exact ih.mp hres q h1
        · intro _
          trivial

theorem lastCat_mem (pairs : List (String × String)) (fid c : String)
    (h : lastCat pairs fid = some c) : (c, fid) ∈ pairs := by
  induction pairs with
  | nil => simp [lastCat] at h
  | cons p rest ih =>
    rw [lastCat_cons] at h
    cases hres : lastCat rest fid with
    | some c0 =>
      rw [hres] at h
      injection h with h
      exact List.mem_cons_of_mem _ (ih (h ▸ hres))
    | none =>
      rw [hres] at h
      by_cases hp : p.2 = fid
      · rw [if_pos hp] at h
        injection h with h
        have : p = (c, fid) := by
          obtain ⟨p1, p2⟩ := p
          simp only at h hp
          rw [h, hp]
        exact this ▸ List.mem_cons_self _ _
      · rw [if_neg hp] at h
        exact Option.noConfusion h

theorem trPairs_mem (trs : List (String × List String)) (cat fid : String) :
    (cat, fid) ∈ trPairs trs ↔ trMentions trs cat fid := by
  simp only [trPairs, List.mem_flatMap, List.mem_map, trMentions, Prod.mk.injEq]
  constructor
  · rintro ⟨p, hp, f, hf, h1, h2⟩
    exact ⟨p, hp, h1, h2 ▸ hf⟩
  · rintro ⟨p, hp, h1, h2⟩
    exact ⟨p, hp, fid, h2, h1, rfl⟩

theorem loadFromToolResources_eq_pairs_foldl (fm : String → Option TFile)
    (bl : String → Option String) (trs : List (String × List String)) :
    loadFromToolResources fm bl (some trs) =
      (trPairs trs).foldl
        (fun acc p => jsMapSet acc p.2 (restoreOne fm bl p.1 p.2)) [] := by
  suffices h : ∀ acc : Registry,
      trs.foldl
        (fun acc p =>
          p.2.foldl (fun acc2 fid => jsMapSet acc2 fid (restoreOne fm bl p.1 fid)) acc)
        acc =
      (trPairs trs).foldl
        (fun acc p => jsMapSet acc p.2 (restoreOne fm bl p.1 p.2)) acc by
    exact h []
  induction trs with
  | nil => intro acc; rfl
  | cons q rest ih =>
    intro acc
    simp only [List.foldl_cons, trPairs, List.flatMap_cons, List.foldl_append, ih]
    rw [List.foldl_map]

theorem restore_foldl_lookup (fm : String → Option TFile) (bl : String → Option String)
    (pairs : List (String × String)) (acc : Registry) (fid : String) :
    (pairs.foldl (fun acc p => jsMapSet acc p.2 (restoreOne fm bl p.1 p.2)) acc).lookup
        fid =
      match lastCat pairs fid with
      | some cat => some (restoreOne fm bl cat fid)
      | none => acc.lookup fid := by
  induction pairs generalizing acc with
  | nil => simp [lastCat]
  | cons p rest ih =>
    simp only [List.foldl_cons]
    rw [ih, lastCat_cons]
    cases hres : lastCat rest fid with
    | some c => simp
    | none =>
      simp only []
      by_cases hp : p.2 = fid
      · rw [if_pos hp, jsMapSet_lookup, if_pos hp.symm, hp]
      · rw [if_neg hp, jsMapSet_lookup, if_neg fun h => hp h.symm]

theorem restore_foldl_mem (fm : String → Option TFile) (bl : String → Option String)
    (pairs : List (String × String)) (acc : Registry) (e : String × ExtendedFile)
    (h : e ∈ pairs.foldl (fun acc p => jsMapSet acc p.2 (restoreOne fm bl p.1 p.2)) acc) :
    e ∈ acc ∨ ∃ p ∈ pairs, e = (p.2, restoreOne fm bl p.1 p.2) := by
  induction pairs generalizing acc with
  | nil => exact Or.inl h
  | cons p rest ih =>
    simp only [List.foldl_cons] at h
    rcases ih _ h with h1 | ⟨q, hq, h1⟩
    · rcases jsMapSet_mem _ _ _ _ h1 with h2 | h2
      · exact Or.inl h2
      · exact Or.inr ⟨p, List.mem_cons_self _ _, h2⟩
    · exact Or.inr ⟨q, List.mem_cons_of_mem _ hq, h1⟩

theorem loadFromToolResources_mem (fm : String → Option TFile)
    (bl : String → Option String) (trs : List (String × List String))
    (e : String × ExtendedFile) (h : e ∈ loadFromToolResources fm bl (some trs)) :
    ∃ cat, trMentions trs cat e.1 ∧ e.2 = restoreOne fm bl cat e.1 := by
  rw [loadFromToolResources_eq_pairs_foldl] at h
  rcases restore_foldl_mem fm bl _ _ _ h with h1 | ⟨p, hp, h1⟩
  · exact absurd h1 (List.not_mem_nil e)
  · refine ⟨p.1, ?_, by rw [h1]⟩
    rw [← trPairs_mem]
    have : (p.1, p.2) = p := rfl
    rw [h1]
    simpa [this] using hp

theorem restoreOne_progress (fm : String → Option TFile) (bl : String → Option String)
    (cat fid : String) : (restoreOne fm bl cat fid).progress = 1 := by
  cases h : fm fid <;> simp [restoreOne, h]

theorem loadFromToolResources_progress (fm : String → Option TFile)
    (bl : String → Option String) (trs : Option (List (String × List String))) :
    ∀ e ∈ loadFromToolResources fm bl trs,
      (e : String × ExtendedFile).2.progress = 1 := by
  intro e he
  cases trs with
  | none => exact absurd he (List.not_mem_nil e)
  | some trs =>
    obtain ⟨cat, _, hrest⟩ := loadFromToolResources_mem fm bl trs e he
    rw [hrest, restoreOne_progress]

theorem fileCategory_ne_empty (x : ExtendedFile) : fileCategory x ≠ "" := by
  unfold fileCategory
  by_cases h : jsTruthy x.tool_resource = true
  · rw [if_pos h]
    cases htr : x.tool_resource with
    | none => rw [htr] at h; exact absurd h (by simp [jsTruthy])
    | some s =>
      rw [htr] at h
      simp only [jsTruthy, bne_iff_ne, ne_eq, decide_eq_true_eq] at h
      simpa [Option.getD] using h
  · rw [if_neg h]
    split_ifs <;> simp [EToolResources.image_edit, EToolResources.file_search]

theorem fileCategory_of_tool_resource (x : ExtendedFile) (c : String)
    (h : x.tool_resource = some c) (hc : c ≠ "") : fileCategory x = c := by
  have ht : jsTruthy x.tool_resource = true := by
    rw [h]
    simpa [jsTruthy] using hc
  unfold fileCategory
  rw [if_pos ht, h]
  rfl

theorem onSuccessUpdate_lookup (data : UploadResult) (s : Registry) (k : String)
    (f' : ExtendedFile) (h : (onSuccessUpdate data s).lookup k = some f') :
    ∃ f, s.lookup k = some f ∧ (f' = f ∨ f' = uploadMerge data f) := by
  induction s with
  | nil => simp [onSuccessUpdate, List.lookup] at h
  | cons e rest ih =>
    obtain ⟨ek, ev⟩ := e
    by_cases hm : ev.temp_file_id = data.temp_file_id
    · simp only [onSuccessUpdate, if_pos hm] at h
      by_cases hk : k = ek
      · have hb : (k == ek) = true := beq_iff_eq.mpr hk
        simp only [List.lookup, hb] at h ⊢
        injection h with h
        exact ⟨ev, rfl, Or.inr h.symm⟩
      · have hne : (k == ek) = false := beq_eq_false_iff_ne.mpr hk
        simp only [List.lookup, hne] at h ⊢
        exact ⟨f', h, Or.inl rfl⟩
    · simp only [onSuccessUpdate, if_neg hm] at h
      by_cases hk : k = ek
      · have hb : (k == ek) = true := beq_iff_eq.mpr hk
        simp only [List.lookup, hb] at h ⊢
        injection h with h
        exact ⟨ev, rfl, Or.inl h.symm⟩
      · have hne : (k == ek) = false := beq_eq_false_iff_ne.mpr hk
        simp only [List.lookup, hne] at h ⊢
        exact ih h

theorem onSuccessUpdate_mem (data : UploadResult) (s : Registry)
    (e' : String × ExtendedFile) (h : e' ∈ onSuccessUpdate data s) :
    e' ∈ s ∨ ∃ e ∈ s, e' = ((e : String × ExtendedFile).1, uploadMerge data e.2) := by
  induction s with
  | nil => exact absurd h (List.not_mem_nil e')
  | cons e rest ih =>
    obtain ⟨ek, ev⟩ := e
    by_cases hm : ev.temp_file_id = data.temp_file_id
    · simp only [onSuccessUpdate, if_pos hm] at h
      rcases List.mem_cons.mp h with h1 | h1
      · exact Or.inr ⟨(ek, ev), List.mem_cons_self _ _, h1⟩
      · exact Or.inl (List.mem_cons_of_mem _ h1)
    · simp only [onSuccessUpdate, if_neg hm] at h
      rcases List.mem_cons.mp h with h1 | h1
      · exact Or.inl (h1 ▸ List.mem_cons_self _ _)
      · rcases ih h1 with h2 | ⟨e0, he0, h2⟩
        · exact Or.inl (List.mem_cons_of_mem _ h2)
        · exact Or.inr ⟨e0, List.mem_cons_of_mem _ he0, h2⟩

/-- C7: for every persisted tool-resource map containing an identifier
the metadata lookup does not resolve, `loadFromToolResources` does not
fail: it synthesizes for that identifier a placeholder record with
progress 1, empty stored path and the synthetic display name
`"File " ++ id` (which contains the identifier), carrying a category
under which the identifier was persisted; in particular restoring
`{file_search: {file_ids: ["abc"]}}` against an empty lookup yields
exactly one such placeholder record. -/
theorem C7_restore_placeholder (fm : String → Option TFile)
    (bl : String → Option String) (trs : List (String × List String)) (cat : String)
    (ids : List String) (fid : String) (hmem : (cat, ids) ∈ trs) (hfid : fid ∈ ids)
    (hmiss : fm fid = none) :
    (∃ f : ExtendedFile,
        (loadFromToolResources fm bl (some trs)).lookup fid = some f ∧
          f.progress = 1 ∧ f.filepath = "" ∧ f.filename = "File " ++ fid ∧
          ∃ cat2, trMentions trs cat2 fid ∧ f.tool_resource = some cat2)
    ∧ loadFromToolResources (fun _ => none) (fun _ => none)
          (some [(EToolResources.file_search, ["abc"])]) =
        [("abc",
          { file_id := "abc"
            temp_file_id := "abc"
            type := some "application/octet-stream"
            filename := "File abc"
            filepath := ""
            progress := 1
            preview := some ""
            size := 0
            width := none
            height := none
            attached := true
            tool_resource := some EToolResources.file_search
            source := some FileSources.vectordb })] := by
  constructor
  · have hment : trMentions trs cat fid := ⟨(cat, ids), hmem, rfl, hfid⟩
    have hpair : (cat, fid) ∈ trPairs trs := (trPairs_mem trs cat fid).mpr hment
    obtain ⟨c, hlc⟩ : ∃ c, lastCat (trPairs trs) fid = some c := by
      cases hlc : lastCat (trPairs trs) fid with
      | some c => exact ⟨c, rfl⟩
      | none => exact absurd rfl ((lastCat_eq_none_iff _ _).mp hlc (cat, fid) hpair)
    refine ⟨restoreOne fm bl c fid, ?_, ?_, ?_, ?_, c, ?_, ?_⟩
    · rw [loadFromToolResources_eq_pairs_foldl, restore_foldl_lookup, hlc]
    · exact restoreOne_progress fm bl c fid
    · simp [restoreOne, hmiss]
    · simp [restoreOne, hmiss]
    · exact (trPairs_mem trs c fid).mp (lastCat_mem _ _ _ hlc)
    · simp [restoreOne, hmiss]
  · rfl

/-- Witness for C7 at the claim's concrete scenario. -/
theorem C7_witness :
    ∃ f : ExtendedFile,
      (loadFromToolResources (fun _ => none) (fun _ => none)
            (some [(EToolResources.file_search, ["abc"])])).lookup "abc" = some f ∧
        f.progress = 1 ∧ f.filepath = "" ∧ f.filename = "File " ++ "abc" ∧
        ∃ cat2, trMentions [(EToolResources.file_search, ["abc"])] cat2 "abc" ∧
          f.tool_resource = some cat2 :=
  (C7_restore_placeholder (fun _ => none) (fun _ => none)
      [(EToolResources.file_search, ["abc"])] EToolResources.file_search ["abc"] "abc"
      (List.mem_singleton.mpr rfl) (List.mem_singleton.mpr rfl) rfl).1

/-- C8: along every pipeline transition (registration, dimension
extraction, upload completion, restoration), starting from a registry
whose progress values lie in the data model's [0, 1] range, the record
stored under any key never sees its progress decrease, and the [0, 1]
range is preserved — so along any sequence of pipeline operations the
progress of the record under a given key is monotonically non-decreasing
until its removal. -/
theorem C8_progress_monotone (s s' : Registry) (hstep : PipelineStep s s')
    (hinv : ∀ e ∈ s, 0 ≤ (e : String × ExtendedFile).2.progress ∧ e.2.progress ≤ 1) :
    (∀ k f f', s.lookup k = some f → s'.lookup k = some f' →
        f.progress ≤ f'.progress)
    ∧ (∀ e ∈ s', 0 ≤ (e : String × ExtendedFile).2.progress ∧ e.2.progress ≤ 1) := by
  cases hstep with
  | register fid bf tr objUrl hfresh =>
    constructor
    · intro k f f' hf hf'
      rw [jsMapSet_lookup] at hf'
      by_cases hk : k = fid
      · rw [hk] at hf
        rw [hf] at hfresh
        exact Option.noConfusion hfresh
      · rw [if_neg hk, hf] at hf'
        injection hf' with hf'
        exact le_of_eq (by rw [hf'])
    · intro e he
      rcases jsMapSet_mem _ _ _ _ he with h1 | h1
      · exact hinv e h1
      · rw [h1]
        constructor <;> norm_num [registerNew]
  | extractDims f w h hcur hprog =>
    constructor
    · intro k g g' hg hg'
      rw [jsMapSet_lookup] at hg'
      by_cases hk : k = f.file_id
      · rw [hk] at hg
        rw [hg] at hcur
        injection hcur with hgf
        rw [if_pos hk] at hg'
        injection hg' with hg'
        rw [hgf, ← hg', hprog]
        norm_num [dimUpdate]
      · rw [if_neg hk, hg] at hg'
        injection hg' with hg'
        exact le_of_eq (by rw [hg'])
    · intro e he
      rcases jsMapSet_mem _ _ _ _ he with h1 | h1
      · exact hinv e h1
      · rw [h1]
        constructor <;> norm_num [dimUpdate]
  | complete data =>
    constructor
    · intro k f f' hf hf'
      obtain ⟨f0, hf0, hcase⟩ := onSuccessUpdate_lookup data s k f' hf'
      rw [hf] at hf0
      injection hf0 with hf0
      rcases hcase with h1 | h1
      · rw [h1, ← hf0]
      · rw [h1, ← hf0]
        have hone : (uploadMerge data f).progress = 1 := rfl
        rw [hone]
        exact (hinv (k, f) (lookup_mem s k f hf)).2
    · intro e he
      rcases onSuccessUpdate_mem data s e he with h1 | ⟨e0, he0, h1⟩
      · exact hinv e h1
      · rw [h1]
        constructor <;> norm_num [uploadMerge]
  | restoreAll fm bl trs =>
    constructor
    · intro k f f' hf hf'
      have h1 : f'.progress = 1 :=
        loadFromToolResources_progress fm bl trs (k, f') (lookup_mem _ _ _ hf')
      rw [h1]
      exact (hinv (k, f) (lookup_mem _ _ _ hf)).2
    · intro e he
      rw [loadFromToolResources_progress fm bl trs e he]
      exact ⟨zero_le_one, le_refl 1⟩

/-- Witness for C8: the invariant clause after a registration step from
the empty registry. -/
theorem C8_witness :
    0 ≤ ((("img1", registerNew "img1" sampleBrowserFile none "blob:photo") :
        String × ExtendedFile)).2.progress ∧
      (("img1", registerNew "img1" sampleBrowserFile none "blob:photo") :
        String × ExtendedFile).2.progress ≤ 1 :=
  (C8_progress_monotone []
      (jsMapSet [] "img1" (registerNew "img1" sampleBrowserFile none "blob:photo"))
      (PipelineStep.register [] "img1" sampleBrowserFile none "blob:photo" rfl)
      (fun e he => absurd he (List.not_mem_nil e))).2
    ("img1", registerNew "img1" sampleBrowserFile none "blob:photo")
    (List.mem_singleton.mpr rfl)

/-- C2: for every registry snapshot whose records all carry non-empty
authoritative identifiers — pairwise distinct, per the data model's
invariant that a record's id is unique within the registry — projecting
with `getToolResources` and then restoring with `loadFromToolResources`
under a metadata lookup that resolves every identifier (to a record
carrying that same identifier, as the hook's `fileMap` construction
guarantees) yields a registry whose identifier-to-category assignments
are exactly those of the original snapshot. -/
theorem C2_project_restore_roundtrip (pf : List ExtendedFile)
    (fm : String → Option TFile) (bl : String → Option String)
    (hids : ∀ x ∈ pf, x.file_id ≠ "")
    (hnodup : (pf.map ExtendedFile.file_id).Nodup)
    (hfm : ∀ x ∈ pf, ∃ db, fm x.file_id = some db ∧ db.file_id = x.file_id) :
    ∀ fid cat,
      assigns (promptFiles (loadFromToolResources fm bl (getToolResources pf)))
          fid cat ↔
        assigns pf fid cat := by
  intro fid cat
  by_cases hemp : pf = []
  · subst hemp
    constructor
    · rintro ⟨g, hg, _, _⟩
      simp [getToolResources, loadFromToolResources, promptFiles] at hg
    · rintro ⟨x, hx, _, _⟩
      exact absurd hx (List.not_mem_nil x)
  · obtain ⟨x0, hx0⟩ := List.exists_mem_of_ne_nil pf hemp
    have htr : getToolResources pf = some (pf.foldl projectStep []) :=
      getToolResources_some_of_qualifying pf x0 hx0 (hids x0 hx0)
    rw [htr]
    set tr := pf.foldl projectStep [] with htrdef
    have hment : ∀ c f, trMentions tr c f ↔
        ∃ x ∈ pf, x.file_id ≠ "" ∧ fileCategory x = c ∧ x.file_id = f := by
      intro c f
      rw [htrdef, trMentions_foldl]
      constructor
      · rintro (h | h)
        · exact absurd h (trMentions_nil _ _)
        · exact h
      · exact Or.inr
    have huniq : ∀ c1 c2 f, trMentions tr c1 f → trMentions tr c2 f → c1 = c2 := by
      intro c1 c2 f hm1 hm2
      obtain ⟨x1, hx1, _, hc1, hf1⟩ := (hment c1 f).mp hm1
      obtain ⟨x2, hx2, _, hc2, hf2⟩ := (hment c2 f).mp hm2
      have hxx : x1 = x2 :=
        List.inj_on_of_nodup_map hnodup hx1 hx2 (by rw [hf1, hf2])
      rw [← hc1, ← hc2, hxx]
    constructor
    · rintro ⟨g, hg, hgid, hgcat⟩
      obtain ⟨e, he, hge⟩ := List.mem_map.mp hg
      obtain ⟨c, hcm, hrest⟩ := loadFromToolResources_mem fm bl tr e he
      obtain ⟨x, hx, hxne, hxcat, hxid⟩ := (hment c e.1).mp hcm
      obtain ⟨db, hdb, hdbid⟩ := hfm x hx
      rw [hxid] at hdb hdbid
      have hcne : c ≠ "" := hxcat ▸ fileCategory_ne_empty x
      have hgid2 : e.2.file_id = e.1 := by
        rw [hrest]
        simp [restoreOne, hdb, hdbid]
      have hgtr : e.2.tool_resource = some c := by
        rw [hrest]
        simp [restoreOne, hdb]
      have hgcat2 : fileCategory e.2 = c := fileCategory_of_tool_resource _ _ hgtr hcne
      refine ⟨x, hx, ?_, ?_⟩
      · rw [hxid, ← hgid2, hge, hgid]
      · rw [hxcat, ← hgcat2, hge]
        exact hgcat
    · rintro ⟨x, hx, hxid, hxcat⟩
      have hxne := hids x hx
      have hm : trMentions tr cat fid := (hment cat fid).mpr ⟨x, hx, hxne, hxcat, hxid⟩
      have hpair : (cat, fid) ∈ trPairs tr := (trPairs_mem tr cat fid).mpr hm
      obtain ⟨c, hlc⟩ : ∃ c, lastCat (trPairs tr) fid = some c := by
        cases hlc : lastCat (trPairs tr) fid with
        | some c => exact ⟨c, rfl⟩
        | none => exact absurd rfl ((lastCat_eq_none_iff _ _).mp hlc (cat, fid) hpair)
      have hcm : trMentions tr c fid := (trPairs_mem tr c fid).mp (lastCat_mem _ _ _ hlc)
      have hceq : c = cat := huniq c cat fid hcm hm
      subst hceq
      have hlook : (loadFromToolResources fm bl (some tr)).lookup fid =
          some (restoreOne fm bl c fid) := by
        rw [loadFromToolResources_eq_pairs_foldl, restore_foldl_lookup, hlc]
      have hmem2 : (fid, restoreOne fm bl c fid) ∈ loadFromToolResources fm bl (some tr) :=
        lookup_mem _ _ _ hlook
      obtain ⟨db, hdb, hdbid⟩ := hfm x hx
      rw [hxid] at hdb hdbid
      have hcne : c ≠ "" := hxcat ▸ fileCategory_ne_empty x
      refine ⟨restoreOne fm bl c fid, List.mem_map_of_mem Prod.snd hmem2, ?_, ?_⟩
      · simp [restoreOne, hdb, hdbid]
      · exact fileCategory_of_tool_resource _ _ (by simp [restoreOne, hdb]) hcne

/-- Witness for C2 at a concrete one-record snapshot with a perfect
lookup. -/
theorem C2_witness :
    assigns (promptFiles (loadFromToolResources (fun _ => some sampleDb)
          (fun _ => none) (getToolResources [sampleText]))) "txt1" "file_search" ↔
      assigns [sampleText] "txt1" "file_search" :=
  C2_project_restore_roundtrip [sampleText] (fun _ => some sampleDb) (fun _ => none)
    (by decide) (by decide)
    (by
      intro x hx
      rw [List.mem_singleton] at hx
      subst hx
      exact ⟨sampleDb, rfl, rfl⟩)
    "txt1" "file_search"

end PromptFiles
